import Mathlib

/-!
Shallow embedding of the Rocket documentation build engine (i80and/rocket).

The Rust sources are translated piecewise into executable Lean definitions:

* `src/page.rs`    — slug output-path derivation (`Slug::create_output_path`,
  `Slug::depth`, `Slug::path_to`);
* `src/evaluator.rs` — section-nesting bookkeeping (`Worker::handle_heading`),
  placeholder generation (`Worker::get_placeholder`), the link-phase
  placeholder substitution (`Evaluator::substitute`) and the tree interpreter
  (`Worker::evaluate` / `Worker::lookup`);
* `src/directives/mod.rs` — the directive handlers (`Concat`, `Let`,
  `Heading`, `RefDirective`, `Version`);
* `src/lex.rs` and `src/parse.rs` — the lexer and the stack parser.

Machine integers (`i8`, `i32`, `u8`, `usize`) are modelled as `Int`/`Nat`;
none of the modelled arithmetic can overflow in the program (heading levels
are 1..6, colon depths and list indices are tiny).  Rust `HashMap`s are
modelled as functions `String → Option _`, `Result<String, ()>` as
`Except Unit String`, and a reachable Rust panic as an outer `Option`
(`none` = panic).
-/

namespace Rocket

/-- Model of `str::repeat`: `s.repeat n` concatenates `n` copies of `s`. -/
def strRepeat (s : String) (n : Nat) : String :=
  match n with
  | 0 => ""
  | n + 1 => s ++ strRepeat s n

/-- ASCII model of the Rust regex class `\s` (the Unicode whitespace
code points beyond ASCII are not modelled). -/
def isWsChar (c : Char) : Bool :=
  c == ' ' || c == '\t' || c == '\n' || c == '\r' || c == '\x0b' || c == '\x0c'

/-! ## src/page.rs — Slug -/

/-- Character test used to isolate the final path component. -/
def notSlash (c : Char) : Bool := !(c == '/')

/-- Model of Rust `Path::file_stem` restricted to a single file-name
component: the part before the final `.`, except that a name whose only
`.` is its first character (such as `.gitignore`) is its own stem. -/
def stemChars (f : List Char) : List Char :=
  let revKept := f.reverse.takeWhile (fun c => !(c == '.'))
  if revKept.length = f.length then f
  else
    let before := (f.reverse.drop (revKept.length + 1)).reverse
    if before = [] then f else before

/-- Model of `PathBuf::set_extension(ext)`: replace (or append) the
extension of the final path component.  A path with an empty final
component is returned unchanged (Rust returns `false` and does nothing). -/
def setExt (p ext : String) : String :=
  let rev := p.data.reverse
  let fRev := rev.takeWhile notSlash
  let dirRev := rev.dropWhile notSlash
  if fRev = [] then p
  else String.mk (dirRev.reverse ++ stemChars fRev.reverse ++ ('.' :: ext.data))

/-- Model of `PathBuf::join` / `push` for string paths: an absolute
right-hand side replaces the path, otherwise the component is appended
after a `/` separator. -/
def pathJoin (p s : String) : String :=
  if s.data.head? = some '/' then s
  else if p = "" then s else p ++ "/" ++ s

/-- Model of `Slug::create_output_path` (src/page.rs lines 16–23):
join the output directory with the slug, push `index` when pretty-URL
mode is on and the slug is not `"index"`, then set the extension to
`html`. -/
def createOutputPath (out slug : String) (prettyUrl : Bool) : String :=
  let p := pathJoin out slug
  let p := if prettyUrl && !(slug == "index") then pathJoin p "index" else p
  setExt p "html"

/-- Model of `Slug::depth` (src/page.rs lines 25–33). -/
def slugDepth (slug : String) (prettyUrl : Bool) : Nat :=
  let modifier := if prettyUrl && !(slug == "index") then 1 else 0
  slug.data.count '/' + modifier

/-- Model of `Slug::path_to` (src/page.rs lines 35–38). -/
def pathTo (slug : String) (dest : String) (prettyUrl : Bool) : String :=
  strRepeat "../" (slugDepth slug prettyUrl) ++ dest

/-! ## src/evaluator.rs — Worker::handle_heading -/

/-- Model of `Worker::handle_heading` (src/evaluator.rs lines 240–253).
The Rust method mutates `self.current_level` and returns the structural
prefix; here the pair `(prefix, new current_level)` is returned, and an
illegal transition returns `Except.error ()` without touching the level
(the Rust code early-returns before the assignment). -/
def handleHeading (currentLevel level : Int) : Except Unit (String × Int) :=
  if level = currentLevel + 1 then
    .ok ("<section>", level)
  else if level = currentLevel then
    .ok ("", level)
  else if level < currentLevel then
    .ok (strRepeat "</section>" (currentLevel - level).toNat, level)
  else
    .error ()

/-! ## src/directives/mod.rs — Version -/

/-- Split a character list at every occurrence of `c`
(model of Rust `str::split(char)`, which yields `[""]` on `""`). -/
def splitChar (c : Char) : List Char → List (List Char)
  | [] => [[]]
  | x :: rest =>
    let r := splitChar c rest
    if x = c then [] :: r
    else
      match r with
      | h :: t => (x :: h) :: t
      | [] => [[x]]

/-- Model of `Vec<String>::join(sep)`. -/
def joinSep (sep : String) : List String → String
  | [] => ""
  | [x] => x
  | x :: rest => x ++ sep ++ joinSep sep rest

/-- Model of `Version::new` (src/directives/mod.rs lines 87–93): the
stored version string split on `'.'`. -/
def versionNew (s : String) : List String :=
  (splitChar '.' s.data).map String.mk

/-- Model of `Version::handle` (src/directives/mod.rs lines 95–111).
`args` is the list of already-evaluated argument strings (the handler
evaluates `args[0]` through `Worker::evaluate`; a literal-text argument
evaluates to itself).  The result `none` models the Rust panic raised by
the slice `self.version[..n_components]` when `n_components` exceeds the
number of stored components; `some` carries the handler's
`Result<String, ()>`. -/
def versionHandle (version : List String) (args : List String) :
    Option (Except Unit String) :=
  match args with
  | [] => some (.ok (joinSep "." version))
  | [arg] =>
    if arg = "" then some (.ok "")
    else
      let nComponents := arg.data.count '.' + 1
      if nComponents ≤ version.length then
        some (.ok (joinSep "." (version.take nComponents)))
      else
        none
  | _ => some (.error ())

/-! ## src/parse.rs — Node

The Rust `Node` is a struct `\x7b value: NodeValue, file_id, lineno \x7d` with
`NodeValue` either `Owned(String)` or `Children(Vec<Node>)`; the two are
flattened into one inductive here. -/

inductive Node where
  | text (s : String) (fileId : Nat) (lineno : Int)
  | block (children : List Node) (fileId : Nat) (lineno : Int)

/-- Source file id of a node (`Node.file_id`). -/
def Node.fid : Node → Nat
  | .text _ f _ => f
  | .block _ f _ => f

/-- Source line of a node (`Node.lineno`). -/
def Node.line : Node → Int
  | .text _ _ l => l
  | .block _ _ l => l

/-! ## src/evaluator.rs — shared evaluator state and Worker state -/

inductive PlaceholderAction where
  | path
  | title

/-- Model of `RefDef` (src/evaluator.rs lines 22–35); `Slug` is its
underlying string. -/
structure RefDef where
  title : String
  slug : String

/-- The prelude directives modelled here (each corresponds to a handler
registered by `main.rs::build`). -/
inductive Directive where
  | concat
  | letD
  | define
  | heading (level : Int)
  | refDirective

/-- Model of `StoredValue` (src/evaluator.rs lines 37–40). -/
inductive StoredValue where
  | directive (d : Directive)
  | node (n : Node)

/-- Functional model of a Rust `HashMap` insert. -/
def mapInsert {α : Type} (m : String → Option α) (k : String) (v : α) :
    String → Option α :=
  fun x => if x = k then some v else m x

/-- Functional model of a Rust `HashMap` remove. -/
def mapRemove {α : Type} (m : String → Option α) (k : String) :
    String → Option α :=
  fun x => if x = k then none else m x

/-- Combined model of the shared `Evaluator` and per-thread `Worker`
state (src/evaluator.rs lines 42–50 and 117–127):
`placeholderPre` is the process-random placeholder prefix, `refdefs` /
`pendingLinks` the shared registries (lock wrappers dropped),
`preludeCtx` the immutable directive prelude, and the rest the Worker's
page-local state.  `current_slug: Option<Slug>` is modelled as the set
slug (every page evaluation starts with `set_slug`).  `logs` collects
`Worker::error` messages as (message, file id, line) triples; the
worker resolves the file id to a path when printing. -/
structure W where
  placeholderPre : String
  refdefs : String → Option RefDef
  pendingLinks : List (PlaceholderAction × String)
  preludeCtx : String → Option StoredValue
  currentSlug : String
  currentLevel : Int
  ctx : String → Option StoredValue
  themeConfig : String → Option String
  logs : List (String × Nat × Int)

/-- Placeholder marker text: `format!("%\x7b\x7d-\x7b\x7d%", prefix, idx)`. -/
def marker (pre : String) (idx : Nat) : String :=
  "%" ++ pre ++ "-" ++ toString idx ++ "%"

/-- Model of `Worker::get_placeholder` (src/evaluator.rs lines 217–221):
append `(action, refid)` to the shared pending-link list and return the
marker embedding the new entry's index (`txn.len() - 1`). -/
def getPlaceholder (st : W) (refid : String) (action : PlaceholderAction) :
    W × String :=
  ({ st with pendingLinks := st.pendingLinks ++ [(action, refid)] },
   marker st.placeholderPre st.pendingLinks.length)

/-- Model of `Worker::insert_refdef` (src/evaluator.rs lines 223–229). -/
def insertRefdef (st : W) (refid : String) (rd : RefDef) : W :=
  { st with refdefs := mapInsert st.refdefs refid rd }

/-- Model of `Worker::error` (src/evaluator.rs lines 259–281): log an
error with the node's file and line context. -/
def workerError (st : W) (fid : Nat) (ln : Int) (msg : String) : W :=
  { st with logs := st.logs ++ [(msg, fid, ln)] }

/-- Model of `escape_string` (src/directives/mod.rs lines 24–38). -/
def escChars : List Char → List Char
  | [] => []
  | c :: r =>
    (if c = '"' then "&#34;".data
     else if c = '\'' then "&#39;".data
     else if c = '<' then "&lt;".data
     else if c = '>' then "&gt;".data
     else if c = '&' then "&amp;".data
     else [c]) ++ escChars r

def escapeString (s : String) : String := String.mk (escChars s.data)

/-- Model of `Heading::title_to_id` (src/directives/mod.rs lines
463–479).  `char::is_alphanumeric`/`to_lowercase` are Unicode in Rust;
the ASCII behaviour (all that the claims exercise) is modelled with
`Char.isAlphanum`/`Char.toLower`. -/
def titleToIdChars : List Char → List Char
  | [] => []
  | c :: r =>
    (if c.isAlphanum then [c.toLower]
     else if c = '-' ∨ c = '_' then [c]
     else if c = ' ' then ['-']
     else (toString c.toNat).data) ++ titleToIdChars r

def titleToId (title : String) : String := String.mk (titleToIdChars title.data)

/-- Model of the `Cow` branch at the top of `Worker::evaluate`
(src/evaluator.rs lines 150–154): a literal first child is borrowed
without evaluation, a block first child is evaluated. -/
def evalFirst (ev : W → Node → W × String) (st : W) (n : Node) : W × String :=
  match n with
  | .text s _ _ => (st, s)
  | .block _ _ _ => ev st n

/-- Model of the name lookup in `Worker::lookup` (src/evaluator.rs
lines 170–173): the local map shadows the shared prelude. -/
def lookupStored (st : W) (k : String) : Option StoredValue :=
  match st.ctx k with
  | some v => some v
  | none => st.preludeCtx k

/-- Model of `consume_string` (src/directives/mod.rs lines 14–22) on a
node known to be present. -/
def consumeValue (ev : W → Node → W × String) (st : W) (n : Node) : W × String :=
  match n with
  | .text s _ _ => (st, s)
  | .block _ _ _ => ev st n

/-- Model of `concat_nodes` (src/directives/mod.rs lines 40–51):
evaluate every node, folding the results together with `sep` (the fold
skips the separator while the accumulator is empty). -/
def concatNodes (ev : W → Node → W × String) (sep : String) :
    W → List Node → String → W × String
  | st, [], acc => (st, acc)
  | st, n :: rest, acc =>
    let p := ev st n
    concatNodes ev sep p.1 rest (if acc = "" then p.2 else acc ++ sep ++ p.2)

/-- Model of the key/value binding loop of `Let::handle`
(src/directives/mod.rs lines 323–344): evaluate each key and value in
order, bind the value eagerly as a literal-text node (recording the
previous binding, if any) and collect the `(key, original)` pairs in
order.  The odd singleton case is unreachable behind the even-length
check. -/
def letBind (ev : W → Node → W × String) :
    W → List Node → W × List (String × Option StoredValue)
  | st, [] => (st, [])
  | st, [_] => (st, [])
  | st, k :: v :: rest =>
    let pk := ev st k
    let pv := ev pk.1 v
    let stored : StoredValue := .node (.text pv.2 v.fid v.line)
    let orig := pv.1.ctx pk.2
    let stC : W := { pv.1 with ctx := mapInsert pv.1.ctx pk.2 stored }
    let pr := letBind ev stC rest
    (pr.1, (pk.2, orig) :: pr.2)

/-- Model of the restore loop of `Let::handle` (src/directives/mod.rs
lines 350–355): reinstate each recorded original binding in order
(insert the recorded value, or remove the key when none was recorded). -/
def restoreVars : W → List (String × Option StoredValue) → W
  | st, [] => st
  | st, (k, some v) :: rest =>
    restoreVars { st with ctx := mapInsert st.ctx k v } rest
  | st, (k, none) :: rest =>
    restoreVars { st with ctx := mapRemove st.ctx k } rest

mutual

/-- Model of `Worker::evaluate` (src/evaluator.rs lines 147–167).
Literal text evaluates to itself; a block evaluates its first child to
a name, looks it up (local map first, then prelude) and either
evaluates a stored node, invokes a directive on the remaining children,
or — for an unknown name or a directive error — logs and returns the
empty string.  The fuel argument bounds recursion depth (the Rust
program would recurse without bound on a cyclic `define`); every claim
below holds for every fuel value, and fuel 0 returns the empty string
for a block. -/
def evalNode : Nat → W → Node → W × String
  | _, st, .text s _ _ => (st, s)
  | 0, st, .block _ _ _ => (st, "")
  | f + 1, st, .block children fid ln =>
    match children with
    | [] => (st, "")
    | first :: args =>
      let p := evalFirst (fun s n => evalNode f s n) st first
      match lookupStored p.1 p.2 with
      | none =>
        (workerError
          (workerError p.1 fid ln ("Unknown name: '" ++ p.2 ++ "'"))
          fid ln "Error evaluating node", "")
      | some (.node storedNode) => evalNode f p.1 storedNode
      | some (.directive d) =>
        match applyDir f d p.1 args with
        | (st2, .ok s) => (st2, s)
        | (st2, .error ()) =>
          (workerError st2 fid ln "Error evaluating node", "")
termination_by f st n => (f, 0)

/-- Model of the modelled directive handlers (src/directives/mod.rs):
`Concat::handle` (lines 156–161), `Let::handle` (lines 306–359),
`Define::handle` (lines 363–405), `Heading::handle` (lines 482–518)
and `RefDirective::handle` (lines 537–551). -/
def applyDir : Nat → Directive → W → List Node → W × Except Unit String
  | f, .concat, st, args =>
    let p := concatNodes (fun s n => evalNode f s n) "" st args ""
    (p.1, .ok p.2)
  | f, .letD, st, args =>
    match args with
    | [] => (st, .error ())
    | kvs :: body =>
      match kvs with
      | .text _ _ _ => (st, .error ())
      | .block children _ _ =>
        if children.length % 2 ≠ 0 then (st, .error ())
        else
          let pb := letBind (fun s n => evalNode f s n) st children
          let pc := concatNodes (fun s n => evalNode f s n) "" pb.1 body ""
          (restoreVars pc.1 pb.2, .ok pc.2)
  | f, .define, st, args =>
    match args with
    | [] => (st, .error ())
    | [a1] =>
      let p1 := consumeValue (fun s n => evalNode f s n) st a1
      (p1.1, .error ())
    | a1 :: a2 :: rest =>
      let p1 := consumeValue (fun s n => evalNode f s n) st a1
      match rest with
      | [] =>
        ({ p1.1 with ctx := mapInsert p1.1.ctx p1.2 (.node a2) }, .ok "")
      | [a3] =>
        if p1.2 ≠ "evaluate" then (p1.1, .error ())
        else
          let pk := evalNode f p1.1 a2
          let pv := evalNode f pk.1 a3
          ({ pv.1 with
              ctx := mapInsert pv.1.ctx pk.2 (.node (.text pv.2 a3.fid a3.line)) },
           .ok "")
      | _ => (p1.1, .error ())
  | f, .heading lvl, st, args =>
    match args with
    | [] => (st, .error ())
    | a1 :: rest =>
      let p1 := consumeValue (fun s n => evalNode f s n) st a1
      let p2 : W × Option String :=
        match rest with
        | [] => (p1.1, none)
        | a2 :: _ =>
          let q := consumeValue (fun s n => evalNode f s n) p1.1 a2
          (q.1, some q.2)
      let trs : String × String × W :=
        match p2.2 with
        | some t => (t, p1.2, insertRefdef p2.1 p1.2 ⟨t, p2.1.currentSlug⟩)
        | none => (p1.2, titleToId p1.2, p2.1)
      let st4 : W :=
        if trs.2.2.themeConfig "title" = none then
          { trs.2.2 with themeConfig := mapInsert trs.2.2.themeConfig "title" trs.1 }
        else trs.2.2
      match handleHeading st4.currentLevel lvl with
      | .error () => (st4, .error ())
      | .ok (pre, newLevel) =>
        ({ st4 with currentLevel := newLevel },
         .ok (pre ++ "<h" ++ toString lvl ++ " id=\"" ++ escapeString trs.2.1
              ++ "\">" ++ trs.1 ++ "</h" ++ toString lvl ++ ">"))
  | f, .refDirective, st, args =>
    match args with
    | [] => (st, .error ())
    | a1 :: rest =>
      let p1 := consumeValue (fun s n => evalNode f s n) st a1
      match rest with
      | [] =>
        let pt := getPlaceholder p1.1 p1.2 .title
        let pp := getPlaceholder pt.1 p1.2 .path
        (pp.1, .ok ("<a href=\"" ++ pp.2 ++ "\">" ++ pt.2 ++ "</a>"))
      | a2 :: _ =>
        let q := consumeValue (fun s n => evalNode f s n) p1.1 a2
        let pp := getPlaceholder q.1 p1.2 .path
        (pp.1, .ok ("<a href=\"" ++ pp.2 ++ "\">" ++ q.2 ++ "</a>"))
termination_by f d st args => (f, 1)

end

/-- A fresh worker state over an empty evaluator, with the slug set to
`index` — the fixture used for the concrete instances below. -/
def initialW : W :=
  { placeholderPre := "deadbeef"
    refdefs := fun _ => none
    pendingLinks := []
    preludeCtx := fun _ => none
    currentSlug := "index"
    currentLevel := 0
    ctx := fun _ => none
    themeConfig := fun _ => none
    logs := [] }

/-! ## General list helpers -/

theorem takeWhile_of_all {α} {p : α → Bool} :
    ∀ {l : List α}, (∀ c ∈ l, p c = true) → l.takeWhile p = l := by
  intro l h
  induction l with
  | nil => rfl
  | cons a t ih =>
    rw [List.takeWhile_cons, h a (List.mem_cons_self a t), if_pos rfl,
      ih fun c hc => h c (List.mem_cons_of_mem a hc)]

theorem takeWhile_append_stop {α} {p : α → Bool} (a : List α) (x : α)
    (b : List α) (hx : p x = false) :
    ((a ++ x :: b).takeWhile p) = a.takeWhile p := by
  induction a with
  | nil => simp [List.takeWhile_cons, hx]
  | cons c t ih =>
    cases hpc : p c <;> simp [List.takeWhile_cons, hpc, ih]

theorem dropWhile_append_stop {α} {p : α → Bool} (a : List α) (x : α)
    (b : List α) (hx : p x = false) (ha : ∀ c ∈ a, p c = true) :
    ((a ++ x :: b).dropWhile p) = x :: b := by
  induction a with
  | nil => simp [List.dropWhile_cons, hx]
  | cons c t ih =>
    rw [List.cons_append, List.dropWhile_cons, ha c (List.mem_cons_self c t)]
    exact ih fun d hd => ha d (List.mem_cons_of_mem c hd)

theorem mem_of_mem_takeWhile {α} {p : α → Bool} :
    ∀ {l : List α} {c : α}, c ∈ l.takeWhile p → c ∈ l := by
  intro l
  induction l with
  | nil => intro c h; simp [List.takeWhile] at h
  | cons a t ih =>
    intro c h
    rw [List.takeWhile_cons] at h
    cases hpa : p a <;> rw [hpa] at h
    · simp at h
    · rcases List.mem_cons.mp h with h | h
      · exact h ▸ List.mem_cons_self a t
      · exact List.mem_cons_of_mem a (ih h)

/-- A file name free of `.` is its own stem. -/
theorem stemChars_no_dot (f : List Char)
    (h : ∀ c ∈ f, (c == '.') = false) : stemChars f = f := by
  have hall : f.reverse.takeWhile (fun c => !(c == '.')) = f.reverse :=
    takeWhile_of_all fun c hc => by simp [h c (List.mem_reverse.mp hc)]
  simp [stemChars, hall]

/-- A path whose final component is nonempty and free of `.` just gains
`.ext` from `set_extension`. -/
theorem setExt_of_clean (p ext : String)
    (h1 : p.data.reverse.takeWhile notSlash ≠ [])
    (h2 : ∀ c ∈ p.data.reverse.takeWhile notSlash, (c == '.') = false) :
    setExt p ext = p ++ "." ++ ext := by
  simp only [setExt]
  rw [if_neg h1,
    stemChars_no_dot _ fun c hc => h2 c (List.mem_reverse.mp hc)]
  apply String.ext
  show (p.data.reverse.dropWhile notSlash).reverse
      ++ (p.data.reverse.takeWhile notSlash).reverse ++ ('.' :: ext.data)
      = (p ++ "." ++ ext).data
  rw [← List.reverse_append, List.takeWhile_append_dropWhile, List.reverse_reverse]
  simp [String.data_append, List.append_assoc]

theorem append_ne_empty_of_mid_slash (a b : String) : a ++ "/" ++ b ≠ "" := by
  intro h
  have : (a ++ "/" ++ b).data = ("" : String).data := by rw [h]
  simp [String.data_append] at this

/-- Claim C4: `Worker::handle_heading` — a level one deeper than the
current nesting level opens one `<section>`, an equal level adds no
structural prefix, a shallower level closes exactly `current − level`
sections, any other transition is an error; on success the current
nesting level becomes the new level. -/
theorem c4_heading_transitions (c l : Int) :
    (l = c + 1 → handleHeading c l = .ok ("<section>", l)) ∧
    (l = c → handleHeading c l = .ok ("", l)) ∧
    (l < c → handleHeading c l = .ok (strRepeat "</section>" (c - l).toNat, l)) ∧
    (c + 1 < l → handleHeading c l = .error ()) := by
  refine ⟨?_, ?_, ?_, ?_⟩ <;> intro h <;> rw [handleHeading]
  · rw [if_pos h]
  · rw [if_neg (by omega), if_pos h]
  · rw [if_neg (by omega), if_neg (by omega), if_pos h]
  · rw [if_neg (by omega), if_neg (by omega), if_neg (by omega)]

/-- Concrete instances of `c4_heading_transitions`: open at +1, stay at
equal, close two sections on a drop of two, and reject a jump of two. -/
theorem c4_heading_transitions_witness :
    handleHeading 0 1 = .ok ("<section>", 1) ∧
    handleHeading 2 2 = .ok ("", 2) ∧
    handleHeading 3 1 = .ok (strRepeat "</section>" ((3 : Int) - 1).toNat, 1) ∧
    handleHeading 0 2 = .error () :=
  ⟨(c4_heading_transitions 0 1).1 rfl,
   (c4_heading_transitions 2 2).2.1 rfl,
   (c4_heading_transitions 3 1).2.2.1 (by decide),
   (c4_heading_transitions 0 2).2.2.2 (by decide)⟩

/-- Claim C9 (counterexample): for the slug `"index"`, pretty-URL mode
produces `index.html` directly under the output directory, not
`index/index.html` as claimed for every slug. -/
theorem c9_counterexample :
    createOutputPath "build" "index" true = "build/index.html" ∧
    createOutputPath "build" "index" true ≠ "build/index/index.html" := by
  decide

/-- Claim C9 (amended): for a nonempty, dot-free, relative slug with no
trailing separator, any slug other than `"index"` maps to
`<out>/<slug>/index.html` under pretty-URL mode and to `<out>/<slug>.html`
under flat mode, while the slug `"index"` maps to `<out>/index.html`. -/
theorem c9_output_path (out slug : String)
    (hout : out ≠ "") (hne : slug.data ≠ [])
    (hdot : ∀ c ∈ slug.data, (c == '.') = false)
    (hhead : slug.data.head? ≠ some '/')
    (hlast : slug.data.getLast? ≠ some '/') :
    (slug ≠ "index" → createOutputPath out slug true = out ++ "/" ++ slug ++ "/index.html") ∧
    createOutputPath out slug false = out ++ "/" ++ slug ++ ".html" ∧
    createOutputPath out "index" true = out ++ "/index.html" := by
  have hjoin : pathJoin out slug = out ++ "/" ++ slug := by
    rw [pathJoin, if_neg hhead, if_neg hout]
  have hdata : (out ++ "/" ++ slug).data
      = out.data ++ '/' :: slug.data := by
    simp only [String.data_append, List.append_assoc]
    rfl
  refine ⟨?_, ?_, ?_⟩
  · intro hidx
    have hb : (true && !(slug == "index")) = true := by
      simp [hidx]
    have hjoin2 : pathJoin (out ++ "/" ++ slug) "index"
        = out ++ "/" ++ slug ++ "/" ++ "index" := by
      rw [pathJoin, if_neg (by decide), if_neg (append_ne_empty_of_mid_slash out slug)]
    have hrev : (out ++ "/" ++ slug ++ "/" ++ "index").data.reverse
        = ['x', 'e', 'd', 'n', 'i'] ++ '/' :: (slug.data.reverse ++ ('/' :: out.data.reverse)) := by
      simp only [String.data_append, List.reverse_append, List.append_assoc]
      rfl
    have htw : (out ++ "/" ++ slug ++ "/" ++ "index").data.reverse.takeWhile notSlash
        = ['x', 'e', 'd', 'n', 'i'] := by
      rw [hrev, takeWhile_append_stop _ _ _ (by rfl)]
      exact takeWhile_of_all (by decide)
    simp only [createOutputPath]
    rw [hjoin, if_pos hb, hjoin2,
      setExt_of_clean _ _ (by rw [htw]; decide) (by rw [htw]; decide)]
    apply String.ext
    simp only [String.data_append, List.append_assoc]
    rfl
  · have hnb : ¬((false && !(slug == "index")) = true) := by
      simp
    obtain ⟨c, t, hct⟩ : ∃ c t, slug.data.reverse = c :: t := by
      cases hr : slug.data.reverse with
      | nil => exact absurd (List.reverse_eq_nil_iff.mp hr) hne
      | cons c t => exact ⟨c, t, rfl⟩
    have hcl : slug.data.getLast? = some c := by
      rw [← List.head?_reverse, hct]; rfl
    have hc : notSlash c = true := by
      rw [notSlash, Bool.not_eq_true', beq_eq_false_iff_ne]
      intro heq
      exact hlast (by rw [hcl, heq])
    have hrev : (out ++ "/" ++ slug).data.reverse
        = (c :: t) ++ '/' :: out.data.reverse := by
      rw [hdata]
      simp only [List.reverse_append, List.reverse_cons, List.append_assoc, ← hct]
      rfl
    have hsub : ∀ d ∈ ((out ++ "/" ++ slug).data.reverse.takeWhile notSlash),
        d ∈ slug.data := by
      intro d hd
      rw [hrev, takeWhile_append_stop _ _ _ (by rfl)] at hd
      have hmem := mem_of_mem_takeWhile hd
      rw [← hct] at hmem
      exact List.mem_reverse.mp hmem
    simp only [createOutputPath]
    rw [hjoin, if_neg hnb, setExt_of_clean _ _ ?_ ?_]
    · apply String.ext
      simp only [String.data_append, List.append_assoc]
      rfl
    · rw [hrev, takeWhile_append_stop _ _ _ (by rfl), List.takeWhile_cons, hc]
      simp
    · intro d hd
      exact hdot d (hsub d hd)
  · have hjoinx : pathJoin out "index" = out ++ "/" ++ "index" := by
      rw [pathJoin, if_neg (by decide), if_neg hout]
    have hnb : ¬((true && !(("index" : String) == "index")) = true) := by decide
    have hrev : (out ++ "/" ++ "index").data.reverse
        = ['x', 'e', 'd', 'n', 'i'] ++ '/' :: out.data.reverse := by
      simp only [String.data_append, List.reverse_append, List.append_assoc]
      rfl
    have htw : (out ++ "/" ++ "index").data.reverse.takeWhile notSlash
        = ['x', 'e', 'd', 'n', 'i'] := by
      rw [hrev, takeWhile_append_stop _ _ _ (by rfl)]
      exact takeWhile_of_all (by decide)
    simp only [createOutputPath]
    rw [hjoinx, if_neg hnb,
      setExt_of_clean _ _ (by rw [htw]; decide) (by rw [htw]; decide)]
    apply String.ext
    simp only [String.data_append, List.append_assoc]
    rfl

/-- Concrete instance of `c9_output_path` at output directory `build`
and slug `docs`. -/
theorem c9_output_path_witness :
    (("docs" : String) ≠ "index" →
      createOutputPath "build" "docs" true = "build" ++ "/" ++ "docs" ++ "/index.html") ∧
    createOutputPath "build" "docs" false = "build" ++ "/" ++ "docs" ++ ".html" ∧
    createOutputPath "build" "index" true = "build" ++ "/index.html" :=
  c9_output_path "build" "docs" (by decide) (by decide) (by decide) (by decide) (by decide)

/-- Claim C10 (counterexample): with the stored version `"3.4.0"`
(three components) and the single evaluated argument `"a.b.c.d"`
(three dots, hence a slice of length four), `Version::handle` hits an
out-of-bounds slice — modelled as `none` (a panic). -/
theorem c10_counterexample :
    versionHandle (versionNew "3.4.0") ["a.b.c.d"] = none := by
  rfl

/-- Claim C10 (amended): for a non-empty evaluated argument, the slice
`version[..dots+1]` taken by `Version::handle` is out of bounds (a
panic, modelled as `none`) exactly when the argument has at least as
many `'.'` characters as there are stored components; otherwise the
handler completes normally. -/
theorem c10_version_bounds (version : List String) (arg : String) (h : arg ≠ "") :
    versionHandle version [arg] = none ↔ version.length < arg.data.count '.' + 1 := by
  rw [versionHandle]
  simp only [if_neg h]
  by_cases hle : arg.data.count '.' + 1 ≤ version.length
  · simp only [if_pos hle]
    constructor
    · intro hx; cases hx
    · intro hx; exact absurd hx (by omega)
  · simp only [if_neg hle]
    constructor
    · intro _; omega
    · intro _; trivial

/-- Concrete instance of `c10_version_bounds`: the argument `"a.b.c.d"`
against stored version `"3.4.0"` is out of bounds. -/
theorem c10_version_bounds_witness :
    versionHandle (versionNew "3.4.0") ["a.b.c.d"] = none ↔
      (versionNew "3.4.0").length < "a.b.c.d".data.count '.' + 1 :=
  c10_version_bounds (versionNew "3.4.0") "a.b.c.d" (by decide)

/-! ## Claims about the evaluator -/

theorem evalNode_text (f : Nat) (st : W) (s : String) (i : Nat) (l : Int) :
    evalNode f st (.text s i l) = (st, s) := by
  cases f <;> simp [evalNode]

/-- Claim C6: the ref directive only appends to the shared pending-link
list.  With just a refid it appends a `(Title, refid)` entry and then a
`(Path, refid)` entry; with an explicit title it appends only the
`(Path, refid)` entry; each marker embeds the process-random prefix and
the appended entry's index; the refdef registry is neither read nor
written (the resulting state and output are the same for every
`refdefs` component of `st`). -/
theorem c6_ref_appends (f : Nat) (st : W) (refid t : String) (i1 i2 : Nat)
    (l1 l2 : Int) (rest : List Node) :
    applyDir f .refDirective st [.text refid i1 l1]
      = ({ st with pendingLinks := st.pendingLinks ++ [(.title, refid), (.path, refid)] },
         .ok ("<a href=\"" ++ marker st.placeholderPre (st.pendingLinks.length + 1) ++ "\">"
              ++ marker st.placeholderPre st.pendingLinks.length ++ "</a>")) ∧
    applyDir f .refDirective st (.text refid i1 l1 :: .text t i2 l2 :: rest)
      = ({ st with pendingLinks := st.pendingLinks ++ [(.path, refid)] },
         .ok ("<a href=\"" ++ marker st.placeholderPre st.pendingLinks.length ++ "\">"
              ++ t ++ "</a>")) := by
  constructor <;> simp [applyDir, consumeValue, getPlaceholder, List.append_assoc]

/-- Claim C8: a block whose first child evaluates to a name bound
neither in the worker's local map nor in the shared prelude logs two
errors with the node's file/line context ("Unknown name" from `lookup`,
then "Error evaluating node" from `evaluate`) and evaluates to the
empty string — evaluation returns normally instead of aborting. -/
theorem c8_unknown_name (f : Nat) (st st1 : W) (k : String) (first : Node)
    (args : List Node) (fid : Nat) (ln : Int)
    (hfirst : evalFirst (fun s n => evalNode f s n) st first = (st1, k))
    (hctx : st1.ctx k = none) (hpre : st1.preludeCtx k = none) :
    evalNode (f + 1) st (.block (first :: args) fid ln)
      = (workerError (workerError st1 fid ln ("Unknown name: '" ++ k ++ "'"))
          fid ln "Error evaluating node", "") := by
  simp only [evalNode, hfirst, lookupStored, hctx, hpre]

/-- Concrete instance of `c8_unknown_name`: evaluating `(:nope:)` under
an empty prelude logs both errors and yields the empty string. -/
theorem c8_unknown_name_witness :
    evalNode 2 initialW (.block [.text "nope" 0 0] 0 0)
      = (workerError (workerError initialW 0 0 "Unknown name: 'nope'")
          0 0 "Error evaluating node", "") :=
  c8_unknown_name 1 initialW initialW "nope" (.text "nope" 0 0) [] 0 0 rfl rfl rfl

/-- The title a heading invocation records: the explicit second
argument when one is given, otherwise the first argument. -/
def headTitle (rest : List Node) (a1 : String) : String :=
  match rest with
  | Node.text s _ _ :: _ => s
  | _ => a1

def isTextNode : Node → Bool
  | .text _ _ _ => true
  | .block _ _ _ => false

/-- Claim C5 (amended): every heading directive invocation — at any
level `h1`..`h6`, and even one whose nesting transition fails — records
its title into the theme-configuration map under `"title"` when and
only when no `"title"` entry exists yet; an existing entry is left
untouched. -/
theorem c5_heading_title (f : Nat) (lvl : Int) (st : W) (a1 : String)
    (i1 : Nat) (l1 : Int) (rest : List Node)
    (hrest : match rest with | [] => True | n :: _ => isTextNode n = true) :
    ((applyDir f (.heading lvl) st (.text a1 i1 l1 :: rest)).1).themeConfig "title"
      = (match st.themeConfig "title" with
         | some t => some t
         | none => some (headTitle rest a1)) := by
  cases rest with
  | nil =>
    simp only [applyDir, consumeValue, headTitle]
    cases h : st.themeConfig "title" with
    | some t =>
      simp only [h, reduceCtorEq, if_neg, reduceIte]
      split <;> simp [h]
    | none =>
      simp only [h, if_pos rfl]
      split <;> simp [mapInsert]
  | cons n rtail =>
    cases n with
    | block cs i l => simp [isTextNode] at hrest
    | text s i l =>
      simp only [applyDir, consumeValue, headTitle]
      cases h : st.themeConfig "title" with
      | some t =>
        simp only [h, reduceCtorEq, if_neg, reduceIte]
        split <;> simp [h, insertRefdef]
      | none =>
        simp only [h, insertRefdef, if_pos rfl]
        split <;> simp [mapInsert]

/-- Concrete instance of `c5_heading_title`: a successful `h1` on a
fresh page records its title. -/
theorem c5_heading_title_witness :
    ((applyDir 1 (.heading 1) initialW [.text "T" 0 0]).1).themeConfig "title"
      = (match initialW.themeConfig "title" with
         | some t => some t
         | none => some (headTitle [] "T")) :=
  c5_heading_title 1 1 initialW "T" 0 0 [] trivial

/-- Claim C5 (counterexample): on a fresh page, an `h2` invoked first —
no `h1` has run — fails its nesting transition yet still records its
own title under `"title"`; the title is therefore not "set by the first
h1 heading directive". -/
theorem c5_counterexample :
    (applyDir 1 (.heading 2) initialW [.text "Foo" 0 0]).2 = .error () ∧
    ((applyDir 1 (.heading 2) initialW [.text "Foo" 0 0]).1).themeConfig "title"
      = some "Foo" := by
  constructor <;>
    simp [applyDir, consumeValue, initialW, handleHeading, mapInsert]

/-! ## Claim C3 — `let` scoping -/

/-- Key/value children made of literal text nodes. -/
def kvNodes : List (String × String) → List Node
  | [] => []
  | (k, v) :: r => .text k 0 0 :: .text v 0 0 :: kvNodes r

/-- The `(key, original binding)` list `Let::handle` collects while
binding `kvNodes l` over an initial local map `m`. -/
def varsOf : List (String × String) → (String → Option StoredValue) →
    List (String × Option StoredValue)
  | [], _ => []
  | (k, v) :: r, m => (k, m k) :: varsOf r (mapInsert m k (.node (.text v 0 0)))

/-- Restoring `(k, o)` sets `k` back to `o` (insert or remove). -/
def setOpt (m : String → Option StoredValue) (k : String)
    (o : Option StoredValue) : String → Option StoredValue :=
  match o with
  | some v => mapInsert m k v
  | none => mapRemove m k

theorem restoreVars_cons (st : W) (k : String) (o : Option StoredValue)
    (rest : List (String × Option StoredValue)) :
    restoreVars st ((k, o) :: rest)
      = restoreVars { st with ctx := setOpt st.ctx k o } rest := by
  cases o <;> rfl

theorem setOpt_self (m : String → Option StoredValue) (k : String)
    (o : Option StoredValue) : setOpt m k o k = o := by
  cases o <;> simp [setOpt, mapInsert, mapRemove]

theorem setOpt_other (m : String → Option StoredValue) (k k' : String)
    (o : Option StoredValue) (h : k' ≠ k) : setOpt m k o k' = m k' := by
  cases o <;> simp [setOpt, mapInsert, mapRemove, h]

theorem varsOf_keys (l : List (String × String)) :
    ∀ m, (varsOf l m).map Prod.fst = l.map Prod.fst := by
  induction l with
  | nil => intro m; rfl
  | cons kv r ih =>
    intro m
    obtain ⟨k, v⟩ := kv
    simp [varsOf, ih]

theorem restore_untouched (k : String) :
    ∀ (vars : List (String × Option StoredValue)) (st : W),
      k ∉ vars.map Prod.fst → (restoreVars st vars).ctx k = st.ctx k := by
  intro vars
  induction vars with
  | nil => intro st _; rfl
  | cons p rest ih =>
    intro st hk
    obtain ⟨k0, o⟩ := p
    rw [restoreVars_cons]
    have hne : k ≠ k0 := by
      intro h; exact hk (by simp [h])
    rw [ih _ (by intro h; exact hk (by simp [h]))]
    exact setOpt_other _ _ _ _ hne

theorem restore_varsOf (k : String) :
    ∀ (l : List (String × String)) (m0 : String → Option StoredValue) (st : W),
      (l.map Prod.fst).Nodup → k ∈ l.map Prod.fst →
      ((restoreVars st (varsOf l m0)).ctx) k = m0 k := by
  intro l
  induction l with
  | nil => intro m0 st _ hk; simp at hk
  | cons kv r ih =>
    intro m0 st hnodup hk
    obtain ⟨k0, v0⟩ := kv
    rw [List.map_cons] at hk hnodup
    simp only [varsOf]
    rw [restoreVars_cons]
    rcases List.mem_cons.mp hk with heq | hmem
    · subst heq
      have hnot : k ∉ r.map Prod.fst := (List.nodup_cons.mp hnodup).1
      rw [restore_untouched k _ _ (by rw [varsOf_keys]; exact hnot)]
      exact setOpt_self _ _ _
    · have hnd := List.nodup_cons.mp hnodup
      have hne : k ≠ k0 := fun h => hnd.1 (h ▸ hmem)
      rw [ih _ _ hnd.2 hmem, mapInsert, if_neg hne]

theorem letBind_kvNodes (f : Nat) :
    ∀ (l : List (String × String)) (st : W),
      (letBind (fun s n => evalNode f s n) st (kvNodes l)).2 = varsOf l st.ctx := by
  intro l
  induction l with
  | nil => intro st; rfl
  | cons kv r ih =>
    intro st
    obtain ⟨k0, v0⟩ := kv
    simp only [kvNodes, letBind, varsOf, evalNode_text, Node.fid, Node.line, ih]

theorem kvNodes_length (l : List (String × String)) :
    (kvNodes l).length = 2 * l.length := by
  induction l with
  | nil => rfl
  | cons kv r ih => obtain ⟨k, v⟩ := kv; simp [kvNodes, ih]; omega

/-- Claim C3 (amended): when the key/value block of a `let` invocation
consists of literal text entries whose keys are pairwise distinct,
every let-bound key holds exactly its pre-invocation binding after the
invocation — restored when one existed, absent when none did —
regardless of what the body evaluates to or whether it errors. -/
theorem c3_let_scoped (f : Nat) (st : W) (l : List (String × String))
    (body : List Node) (b1 : Nat) (b2 : Int)
    (hnodup : (l.map Prod.fst).Nodup) (k : String) (hk : k ∈ l.map Prod.fst) :
    ((applyDir f .letD st (.block (kvNodes l) b1 b2 :: body)).1).ctx k
      = st.ctx k := by
  have hlen : ¬((kvNodes l).length % 2 ≠ 0) := by
    rw [kvNodes_length]; omega
  simp only [applyDir, if_neg hlen]
  rw [show (letBind (fun s n => evalNode f s n) st (kvNodes l)).2 = varsOf l st.ctx
      from letBind_kvNodes f l st]
  exact restore_varsOf k l st.ctx _ hnodup hk

/-- Concrete instance of `c3_let_scoped`: `(let (x 1 y 2) (concat))`
leaves both `x` and `y` unbound, as they were before. -/
theorem c3_let_scoped_witness :
    ((applyDir 1 .letD initialW
        [.block (kvNodes [("x", "1"), ("y", "2")]) 0 0]).1).ctx "y"
      = initialW.ctx "y" :=
  c3_let_scoped 1 initialW [("x", "1"), ("y", "2")] [] 0 0
    (by simp) "y" (by simp)

/-- Claim C3 (counterexample): with a duplicated key —
`(let (k a k b) )` on a worker where `k` was unbound — the local map
after the invocation still binds `k` (to the first let-value `a`),
so the invocation does not leave the local variable map as it was. -/
theorem c3_counterexample :
    ((applyDir 1 .letD initialW
        [.block [.text "k" 0 0, .text "a" 0 0, .text "k" 0 0, .text "b" 0 0] 0 0]).1).ctx "k"
      ≠ initialW.ctx "k" := by
  simp [applyDir, letBind, restoreVars, evalNode_text, concatNodes,
    mapInsert, mapRemove, initialW, Node.fid, Node.line]

/-! ## src/parse.rs — the stack parser

`parse.rs` consumes tokens carrying colon depths
(`Token::StartBlock(lineno, colon_depth)`, `Token::RightParen(colon_depth)`,
`Token::Rocket(lineno)`, `Token::Text`, `Token::Quote`, `Token::Dedent`).
The checked-in `src/lex.rs` is an earlier revision of the lexer whose
`Token` type differs (no colon depths, extra `Character`/`Indent`
variants); the two revisions coincide on literal text tokens, which is
how they are related below. -/

namespace Parse

inductive Token where
  | startBlock (lineno : Int) (colonDepth : Nat)
  | rightParen (colonDepth : Nat)
  | rocket (lineno : Int)
  | text (lineno : Int) (s : String)
  | quote (lineno : Int)
  | dedent

/-- Text appended by `push_start_expression_string` (src/parse.rs lines
15–27): an opening fence of `colonDepth + 1` colons. -/
def pushStart (colonDepth : Nat) : String :=
  match colonDepth with
  | 0 => "(:"
  | 1 => "(::"
  | 2 => "(:::"
  | _ => "(" ++ String.mk (List.replicate (colonDepth + 1) ':')

/-- Text appended by `push_end_expression_string` (src/parse.rs lines
29–41): a closing fence of `colonDepth + 1` colons. -/
def pushEnd (colonDepth : Nat) : String :=
  match colonDepth with
  | 0 => ":)"
  | 1 => "::)"
  | 2 => ":::)"
  | _ => String.mk (List.replicate (colonDepth + 1) ':') ++ ")"

/-- The two token-handler states (`StateRocket`, src/parse.rs lines
112–138, and `StateExpression`, lines 200–247), with their fields. -/
inductive HandlerState where
  | rocket (colonDepth : Nat) (root : List Node) (buffer : List String)
      (fileId : Nat) (lineno : Int)
  | expression (colonDepth : Nat) (root : List Node) (fileId : Nat)
      (lineno : Int) (quote : String) (quoteShouldMerge : Bool)
      (inQuote : Bool) (newNode : Bool)

inductive StackRequest where
  | none
  | pop (n : Nat)
  | push (h : HandlerState)

/-- Model of `Vec<String>::concat` (the rocket state's `buffer.concat()`). -/
def concatStrs : List String → String
  | [] => ""
  | x :: r => x ++ concatStrs r

/-- Model of `StateRocket::ensure_string` followed by a push: append
`s` to the last buffer fragment (creating one if the buffer is empty). -/
def appendLastStr (buf : List String) (s : String) : List String :=
  match buf with
  | [] => [s]
  | [x] => [x ++ s]
  | x :: xs => x :: appendLastStr xs s

/-- Model of `StateExpression::add_text` (src/parse.rs lines 226–246):
merge into a trailing literal node or append a fresh one. -/
def addTextList : List Node → Bool → Nat → Int → String → List Node
  | root, true, fid, ln, s => root ++ [.text s fid ln]
  | [], false, fid, ln, s => [.text s fid ln]
  | [Node.text v f l], false, _, _, s => [.text (v ++ s) f l]
  | [n], false, fid, ln, s => [n, .text s fid ln]
  | x :: xs, false, fid, ln, s => x :: addTextList xs false fid ln s

/-- Model of `TokenHandler::handle_token` for both states
(src/parse.rs lines 140–175 and 249–332).  The Rust method mutates the
state and returns a `StackRequest`; here the updated state is returned
alongside the request. -/
def handleToken : HandlerState → Token → HandlerState × StackRequest
  | .rocket cd root buffer fid ln, tok =>
    match tok with
    | .text _ s => (.rocket cd root (buffer ++ [s]) fid ln, .none)
    | .quote _ => (.rocket cd root (appendLastStr buffer "\"") fid ln, .none)
    | .startBlock lineno d =>
      if d < cd then
        (.rocket cd root (appendLastStr buffer (pushStart d)) fid ln, .none)
      else
        (.rocket cd
          (if buffer = [] then root
           else root ++ [.text (concatStrs buffer) fid lineno])
          [] fid ln,
         .push (.expression d [] fid lineno "" false false true))
    | .rightParen d =>
      (.rocket cd root (appendLastStr buffer (pushEnd d)) fid ln, .none)
    | .rocket _ => (.rocket cd root (appendLastStr buffer "=>") fid ln, .none)
    | .dedent => (.rocket cd root buffer fid ln, .pop 2)
  | .expression cd root fid ln q qsm iq nn, tok =>
    if iq then
      match tok with
      | .text _ s => (.expression cd root fid ln (q ++ s) qsm true nn, .none)
      | .quote qln =>
        (match root.getLast? with
         | some (Node.text v f l) =>
           if qsm then
             (.expression cd (root.dropLast ++ [.text (v ++ q) f l])
                fid ln "" false false nn, .none)
           else
             (.expression cd (root ++ [.text q fid qln])
                fid ln "" false false nn, .none)
         | _ =>
           (.expression cd (root ++ [.text q fid qln])
              fid ln "" false false nn, .none))
      | .startBlock _ d =>
        (.expression cd root fid ln (q ++ pushStart d) qsm iq nn, .none)
      | .rightParen d =>
        (.expression cd root fid ln (q ++ pushEnd d) qsm iq nn, .none)
      | .rocket _ => (.expression cd root fid ln (q ++ "=>") qsm iq nn, .none)
      | .dedent => (.expression cd root fid ln q qsm iq nn, .none)
    else
      match tok with
      | .text tln s =>
        if s ≠ "" ∧ (∀ c ∈ s.data, isWsChar c = true) then
          (.expression cd root fid ln q false iq true, .none)
        else
          (.expression cd (addTextList root nn fid tln s) fid ln q true iq false,
           .none)
      | .quote _ => (.expression cd root fid ln q qsm true nn, .none)
      | .startBlock lineno d =>
        (.expression cd root fid ln q qsm iq nn,
         .push (.expression d [] fid lineno "" false false true))
      | .rocket lineno =>
        (.expression cd root fid ln q qsm iq nn,
         .push (.rocket cd [.text "concat" fid lineno] [] fid lineno))
      | .rightParen d =>
        if d = cd then
          (.expression cd root fid ln q qsm iq nn, .pop 1)
        else
          (.expression cd (addTextList root nn fid ln (pushEnd d)) fid ln q
             true iq false, .none)
      | .dedent => (.expression cd root fid ln q qsm iq nn, .pop 1)

/-- Model of `TokenHandler::finish` for both states (src/parse.rs lines
177–189 and 334–340). -/
def finishState : HandlerState → Node
  | .rocket _ root buffer fid ln =>
    if buffer = [] then .block root fid ln
    else .block (root ++ [.text (concatStrs buffer) fid ln]) fid ln
  | .expression _ root fid ln _ _ _ _ => .block root fid ln

/-- Model of `TokenHandler::push` for both states. -/
def pushChild : HandlerState → Node → HandlerState
  | .rocket cd root buffer fid ln, n => .rocket cd (root ++ [n]) buffer fid ln
  | .expression cd root fid ln a b c d, n => .expression cd (root ++ [n]) fid ln a b c d

/-- The pop loop of `ParseContextStack::handle` (src/parse.rs lines
383–386); `none` models the `expect` panics on an exhausted stack. -/
def popN : Nat → List HandlerState → Option (List HandlerState)
  | 0, s => some s
  | n + 1, top :: parent :: rest =>
    popN n (pushChild parent (finishState top) :: rest)
  | _ + 1, _ => none

/-- Model of `ParseContextStack::handle` (src/parse.rs lines 374–389);
the stack's head is its top. -/
def stackHandle (stack : List HandlerState) (tok : Token) :
    Option (List HandlerState) :=
  match stack with
  | [] => none
  | top :: rest =>
    match handleToken top tok with
    | (top2, .none) => some (top2 :: rest)
    | (top2, .push h) => some (h :: top2 :: rest)
    | (top2, .pop n) => popN n (top2 :: rest)

def runTokens : List HandlerState → List Token → Option (List HandlerState)
  | stack, [] => some stack
  | stack, t :: rest =>
    match stackHandle stack t with
    | none => none
    | some stack2 => runTokens stack2 rest

/-- The initial stack of `ParseContextStack::new` (src/parse.rs lines
360–372): one rocket state at colon depth 0 holding the `concat` head. -/
def initStack (fid : Nat) : List HandlerState :=
  [.rocket 0 [.text "concat" fid 0] [] fid 0]

/-- Model of `Parser::parse_string` (src/parse.rs lines 408–422): feed
every token through the stack, finish the top state, and report an
unterminated block when more than one handler remains. -/
def parseTokens (fid : Nat) (toks : List Token) : Option (Except String Node) :=
  match runTokens (initStack fid) toks with
  | none => none
  | some [] => none
  | some (top :: rest) =>
    let root := finishState top
    match rest with
    | _ :: _ => some (.error ("Unterminated block started on line "
        ++ toString root.line))
    | [] => some (.ok root)

end Parse

/-- The literal text carried by a node list, in order (used to state
that an inert closing fence is reproduced in the output). -/
def nodesText : List Node → String
  | [] => ""
  | Node.text s _ _ :: r => s ++ nodesText r
  | Node.block cs _ _ :: r => nodesText cs ++ nodesText r

theorem nodesText_append (a b : List Node) :
    nodesText (a ++ b) = nodesText a ++ nodesText b := by
  induction a with
  | nil => simp [nodesText]
  | cons n r ih =>
    cases n <;> simp [nodesText, ih, String.append_assoc]

theorem nodesText_addTextList (root : List Node) (nn : Bool) (fid : Nat)
    (ln : Int) (s : String) :
    nodesText (Parse.addTextList root nn fid ln s) = nodesText root ++ s := by
  have htrue : ∀ (rt : List Node),
      Parse.addTextList rt true fid ln s = rt ++ [Node.text s fid ln] := by
    intro rt
    simp [Parse.addTextList]
  cases nn with
  | true =>
    rw [htrue root, nodesText_append]
    simp [nodesText]
  | false =>
    induction root with
    | nil => simp [Parse.addTextList, nodesText]
    | cons n r ih =>
      cases r with
      | nil =>
        cases n <;> simp [Parse.addTextList, nodesText, String.append_assoc]
      | cons m r2 =>
        cases n <;> simp [Parse.addTextList, nodesText, ih, String.append_assoc]

theorem pushEnd_chars (d : Nat) :
    Parse.pushEnd d = String.mk (List.replicate (d + 1) ':') ++ ")" := by
  match d with
  | 0 => rfl
  | 1 => rfl
  | 2 => rfl
  | n + 3 => rfl

/-- Claim C2: in an expression state outside a quote, a block-open
token pushes a child expression at the token's colon depth; the block
is closed (popped) by a block-close token of exactly its own depth; a
block-close of any other depth leaves the stack untouched and appends
the literal closing fence — exactly `depth + 1` colons followed by
`)` — to the accumulated literal output, character for character. -/
theorem c2_colon_depth (cd : Nat) (root : List Node) (fid : Nat) (ln : Int)
    (q : String) (qsm nn : Bool) (d : Nat) (sbLn : Int) :
    (Parse.handleToken (.expression cd root fid ln q qsm false nn)
        (.startBlock sbLn d)
      = (.expression cd root fid ln q qsm false nn,
         .push (.expression d [] fid sbLn "" false false true))) ∧
    (d = cd →
      Parse.handleToken (.expression cd root fid ln q qsm false nn)
          (.rightParen d)
        = (.expression cd root fid ln q qsm false nn, .pop 1)) ∧
    (d ≠ cd →
      Parse.handleToken (.expression cd root fid ln q qsm false nn)
          (.rightParen d)
        = (.expression cd (Parse.addTextList root nn fid ln (Parse.pushEnd d))
             fid ln q true false false, .none)) ∧
    Parse.pushEnd d = String.mk (List.replicate (d + 1) ':') ++ ")" ∧
    nodesText (Parse.addTextList root nn fid ln (Parse.pushEnd d))
      = nodesText root ++ Parse.pushEnd d := by
  refine ⟨?_, ?_, ?_, pushEnd_chars d, nodesText_addTextList root nn fid ln _⟩
  · simp [Parse.handleToken]
  · intro h
    simp [Parse.handleToken, h]
  · intro h
    simp [Parse.handleToken, h]

/-- Concrete instance of `c2_colon_depth`: a depth-1 block swallows a
depth-1 closer but turns a depth-0 closer into the literal text `:)`. -/
theorem c2_colon_depth_witness :
    (Parse.handleToken (.expression 1 [] 0 0 "" false false true)
        (.rightParen 1)
      = (.expression 1 [] 0 0 "" false false true, .pop 1)) ∧
    (Parse.handleToken (.expression 1 [] 0 0 "" false false true)
        (.rightParen 0)
      = (.expression 1 (Parse.addTextList [] true 0 0 (Parse.pushEnd 0))
           0 0 "" true false false, .none)) ∧
    nodesText (Parse.addTextList [] true 0 0 (Parse.pushEnd 0)) = "" ++ ":)" :=
  ⟨(c2_colon_depth 1 [] 0 0 "" false true 1 0).2.1 rfl,
   (c2_colon_depth 1 [] 0 0 "" false true 0 0).2.2.1 (by decide),
   by
    have h := (c2_colon_depth 1 [] 0 0 "" false true 0 0).2.2.2.2
    simpa [nodesText] using h⟩

/-! ## src/evaluator.rs — Evaluator::substitute, and src/main.rs — link_file -/

/-- Model of `Page` (src/page.rs lines 53–58); theme-config values are
the strings the modelled directives store. -/
structure Page where
  sourcePath : String
  slug : String
  body : String
  themeConfig : String → Option String

def isDigitChar (c : Char) : Bool := '0' ≤ c && c ≤ '9'

/-- Decimal value of a digit run (model of `str::parse::<u64>`; the
parse only fails — a panic — on a number beyond `u64`, which requires a
20-digit marker index and is not modelled). -/
def digitsToNat (ds : List Char) : Nat :=
  ds.foldl (fun a c => a * 10 + (c.toNat - '0'.toNat)) 0

/-- Strip `pre` from the head of `cs`, if it is there. -/
def stripHead : List Char → List Char → Option (List Char)
  | [], cs => some cs
  | _, [] => none
  | p :: ps, c :: cs => if c = p then stripHead ps cs else none

/-- Recognise the placeholder pattern `%<pre>-(\d+)%` at the head of
`cs` (the regex built in `Evaluator::new`, src/evaluator.rs lines
63–65), returning the parsed index and the remaining input. -/
def matchMarker (pre : List Char) (cs : List Char) : Option (Nat × List Char) :=
  match cs with
  | '%' :: r1 =>
    match stripHead pre r1 with
    | none => none
    | some r2 =>
      match r2 with
      | '-' :: r3 =>
        let digits := r3.takeWhile isDigitChar
        if digits = [] then none
        else
          match r3.drop digits.length with
          | '%' :: rest => some (digitsToNat digits, rest)
          | _ => none
      | _ => none
  | _ => none

/-- Model of the `replace_all` closure inside `Evaluator::substitute`
(src/evaluator.rs lines 89–110): look up the pending entry at the
marker's index (`none` = the `expect("Missing ref number")` panic,
reachable only from a forged marker), resolve its refid against the
refdef registry — an unknown refid logs an error and substitutes the
empty string — and produce either the relative path or the title. -/
def replaceClosure (pending : List (PlaceholderAction × String))
    (refdefs : String → Option RefDef) (slug : String) (n : Nat) :
    Option String :=
  match pending.get? n with
  | none => none
  | some (action, refid) =>
    match refdefs refid with
    | none => some ""
    | some rd =>
      match action with
      | .path => some (pathTo slug rd.slug true)
      | .title => some rd.title

/-- The left-to-right, non-overlapping scan of `Regex::replace_all`
over the page body.  `fuel` bounds the scan (`body.length` steps always
suffice, as every step consumes at least one character); a failing
replacement (`none` = panic) aborts the whole scan. -/
def substituteScan (repl : Nat → Option (List Char)) (pre : List Char) :
    Nat → List Char → Option (List Char)
  | _, [] => some []
  | 0, cs => some cs
  | fuel + 1, c :: rest =>
    match matchMarker pre (c :: rest) with
    | some (n, remaining) =>
      match repl n with
      | none => none
      | some r => (substituteScan repl pre fuel remaining).map (fun t => r ++ t)
    | none => (substituteScan repl pre fuel rest).map (fun t => c :: t)

/-- Model of `Evaluator::substitute` (src/evaluator.rs lines 87–114):
replace every placeholder marker in the page body and wrap the result
in `Ok` — the `Result`'s error case is never produced. -/
def substitute (pre : String) (pending : List (PlaceholderAction × String))
    (refdefs : String → Option RefDef) (page : Page) :
    Option (Except Unit String) :=
  match substituteScan
      (fun n => (replaceClosure pending refdefs page.slug n).map String.data)
      pre.data page.body.data.length page.body.data with
  | none => none
  | some cs => some (.ok (String.mk cs))

/-- Model of `LinkError` (src/main.rs lines 51–56). -/
inductive LinkError where
  | undefinedReference
  | templateError
  | ioError

/-- Model of `Project::link_file` (src/main.rs lines 160–191): an `Err`
from `substitute` would become `LinkError::UndefinedReference`; an `Ok`
body is rendered through the external template renderer and written to
the output path (filesystem writes are modelled as succeeding; template
lookup is external).  `some (.ok ())` means the page is written. -/
def linkFile (render : String → Except Unit String) (pre : String)
    (pending : List (PlaceholderAction × String))
    (refdefs : String → Option RefDef) (page : Page) :
    Option (Except LinkError Unit) :=
  match substitute pre pending refdefs page with
  | none => none
  | some (.error ()) => some (.error .undefinedReference)
  | some (.ok newBody) =>
    match render newBody with
    | .error () => some (.error .templateError)
    | .ok _ => some (.ok ())

/-- The fixture page for the concrete link-phase instances: its body
holds the marker of pending entry 0, whose refid is never registered. -/
def cexPage : Page :=
  { sourcePath := "b.rocket", slug := "b", body := "x %ab-0% y",
    themeConfig := fun _ => none }

/-- Claim C1 (counterexample): with pending entry 0 referring to the
unregistered refid `missing`, substitution does not fail — the marker
is replaced by the empty string and the result is `Ok` — and
`link_file` still renders and writes the page. -/
theorem c1_counterexample :
    substitute "ab" [(.path, "missing")] (fun _ => none) cexPage
      = some (.ok "x  y") ∧
    linkFile (fun s => .ok s) "ab" [(.path, "missing")] (fun _ => none) cexPage
      = some (.ok ()) := by
  constructor <;> rfl

/-- Claim C1 (amended): an unresolved refid at link time is not fatal
to the page.  `substitute` never returns an error (so the
`UndefinedReference` arm of `link_file` is unreachable and the page is
written whenever rendering and I/O succeed), and a pending entry whose
refid is missing from the registry is replaced by the empty string. -/
theorem c1_undefined_ref_not_fatal (pre : String)
    (pending : List (PlaceholderAction × String))
    (refdefs : String → Option RefDef) (page : Page)
    (render : String → Except Unit String) :
    linkFile render pre pending refdefs page ≠ some (.error .undefinedReference) ∧
    (∀ n action refid, pending.get? n = some (action, refid) →
      refdefs refid = none →
      replaceClosure pending refdefs page.slug n = some "") := by
  constructor
  · rw [linkFile, substitute]
    cases hscan : substituteScan
        (fun n => (replaceClosure pending refdefs page.slug n).map String.data)
        pre.data page.body.data.length page.body.data with
    | none => simp
    | some cs =>
      simp only []
      cases render (String.mk cs) <;> simp
  · intro n action refid hget hdef
    rw [replaceClosure, hget]
    simp [hdef]

/-- Concrete instance of `c1_undefined_ref_not_fatal` at the
counterexample inputs. -/
theorem c1_undefined_ref_not_fatal_witness :
    linkFile (fun s => .ok s) "ab" [(.path, "missing")] (fun _ => none) cexPage
      ≠ some (.error .undefinedReference) ∧
    replaceClosure [(.path, "missing")] (fun _ => none) cexPage.slug 0
      = some "" :=
  ⟨(c1_undefined_ref_not_fatal "ab" [(.path, "missing")] (fun _ => none)
      cexPage (fun s => .ok s)).1,
   (c1_undefined_ref_not_fatal "ab" [(.path, "missing")] (fun _ => none)
      cexPage (fun s => .ok s)).2 0 .path "missing" rfl rfl⟩

/-! ## src/lex.rs — the lexer

This file is the earlier revision checked into src/: its `Token` type
carries no colon depths and has `Character`/`Indent` variants that
src/parse.rs does not consume.  On literal-only input both revisions
emit nothing but `Text` tokens, which is how the lexer is related to
the parser in claim C7 below. -/

namespace Lex

inductive Token where
  | startBlock (lineno : Int)
  | rightParen
  | rocket
  | indent
  | dedent
  | text (lineno : Int) (s : String)
  | character (lineno : Int) (c : Char)
  | quote (lineno : Int)

/-- The character class of the final `PAT_TOKENS` alternative
`[^\(\)=\s"]+`. -/
def isTextChar (c : Char) : Bool :=
  !(c == '(' || c == ')' || c == '=' || c == '"' || Rocket.isWsChar c)

/-- Greedy run of characters satisfying `p` (the `+`/`*` pieces of
`PAT_TOKENS`), returning the run and the rest. -/
def takeRun (p : Char → Bool) : List Char → List Char × List Char
  | [] => ([], [])
  | c :: r =>
    if p c then
      let q := takeRun p r
      (c :: q.1, q.2)
    else ([], c :: r)

theorem takeRun_append (p : Char → Bool) :
    ∀ l : List Char, (takeRun p l).1 ++ (takeRun p l).2 = l := by
  intro l
  induction l with
  | nil => rfl
  | cons c r ih =>
    by_cases h : p c = true
    · simp [takeRun, h, ih]
    · simp [takeRun, h]

theorem takeRun_snd_length (p : Char → Bool) :
    ∀ l : List Char, (takeRun p l).2.length ≤ l.length := by
  intro l
  induction l with
  | nil => simp [takeRun]
  | cons c r ih =>
    by_cases h : p c = true
    · simp [takeRun, h]
      omega
    · simp [takeRun, h]

/-- The maximal-munch scan of `PAT_TOKENS.find_iter` (src/lex.rs lines
4–15): at each position the alternatives are tried in the regex's
order — `\(:`, `=>`, `"`, `\n\x20*`, `=`, `\(`, `\)`, `\s+`,
`[^\(\)=\s"]+` — and together they match every character, so the
matches partition the input.  `fuel` bounds the scan; every step
consumes at least one character, so the `scan` wrapper's
`fuel = cs.length` always suffices and the fuel-exhausted arm is
unreachable from it. -/
def scanF : Nat → List Char → List (List Char)
  | _, [] => []
  | 0, cs => [cs]
  | fuel + 1, c :: rest =>
    if c = '(' ∧ rest.head? = some ':' then ['(', ':'] :: scanF fuel rest.tail
    else if c = '=' ∧ rest.head? = some '>' then ['=', '>'] :: scanF fuel rest.tail
    else if c = '"' then ['"'] :: scanF fuel rest
    else if c = '\n' then
      ('\n' :: (takeRun (fun x => x == ' ') rest).1)
        :: scanF fuel (takeRun (fun x => x == ' ') rest).2
    else if c = '=' then ['='] :: scanF fuel rest
    else if c = '(' then ['('] :: scanF fuel rest
    else if c = ')' then [')'] :: scanF fuel rest
    else if Rocket.isWsChar c then
      (c :: (takeRun Rocket.isWsChar rest).1)
        :: scanF fuel (takeRun Rocket.isWsChar rest).2
    else
      (c :: (takeRun isTextChar rest).1)
        :: scanF fuel (takeRun isTextChar rest).2

def scan (cs : List Char) : List (List Char) := scanF cs.length cs

/-- Newlines inside a match (`naive_count_32(…, b'\n')`). -/
def countNl (m : List Char) : Nat := m.count '\n'

/-- First character following the current match: by contiguity of the
matches this is `data_bytes.get(pat_match.end())`. -/
def headChar : List (List Char) → Option Char
  | [] => none
  | m :: _ => m.head?

/-- The dedent loop of the newline case (src/lex.rs lines 59–64): pop
indentation levels greater than the new level, emitting one dedent per
pop.  The stack's head is its top; the bottom sentinel 0 is never
popped (`new_indentation_level` is never negative), so the
`expect("Indentation stack is empty")` panic is unreachable. -/
def dedentLoop (newLevel : Nat) : List Nat → List Nat × Nat
  | [] => ([], 0)
  | top :: rest =>
    if newLevel < top then
      let p := dedentLoop newLevel rest
      (p.1, p.2 + 1)
    else (top :: rest, 0)

/-- The token-construction loop of `lex` (src/lex.rs lines 37–103) over
the match texts, dispatching on each match's first byte and threading
`(lineno, indentation stack, start_rocket)`.  `lineno` grows by the
newlines of the previous matches (the Rust loop counts the gap up to
the current match's start).  The `'('` arm folds Rust's unreachable
`panic!("Bad character matched")` into the `Character` case (the scan
only emits `(:` or a lone `(`). -/
def lexLoop : Int → List Nat → Bool → List (List Char) → List Token
  | _, indentStack, _, [] => List.replicate (indentStack.length - 1) .dedent
  | lineno, indentStack, startRocket, m :: rest =>
    match m with
    | [] => lexLoop lineno indentStack startRocket rest
    | c :: mrest =>
      if c = ')' then
        .rightParen :: lexLoop (lineno + countNl m) indentStack startRocket rest
      else if c = '"' then
        .quote lineno :: lexLoop (lineno + countNl m) indentStack startRocket rest
      else if c = '\n' then
        if headChar rest = some '\n' then
          .character lineno '\n'
            :: lexLoop (lineno + countNl m) indentStack startRocket rest
        else
          let newLevel := m.length - 1
          let p := dedentLoop newLevel indentStack
          let dedents := List.replicate p.2 Token.dedent
          if startRocket then
            .character lineno '\n'
              :: (dedents ++ (Token.indent
                  :: lexLoop (lineno + countNl m) (newLevel :: p.1) false rest))
          else if newLevel > p.1.headD 0 then
            .character lineno '\n'
              :: (dedents ++ (Token.text lineno (String.mk (m.drop (1 + p.1.headD 0)))
                  :: lexLoop (lineno + countNl m) p.1 startRocket rest))
          else
            .character lineno '\n'
              :: (dedents ++ lexLoop (lineno + countNl m) p.1 startRocket rest)
      else if c = '(' then
        (if mrest.head? = some ':' then Token.startBlock lineno
         else Token.character lineno '(')
          :: lexLoop (lineno + countNl m) indentStack startRocket rest
      else if c = '=' then
        if headChar rest ≠ some '\n' then
          .text lineno (String.mk m)
            :: lexLoop (lineno + countNl m) indentStack startRocket rest
        else if m = ['=', '>'] then
          .rocket :: lexLoop (lineno + countNl m) indentStack true rest
        else
          .character lineno '='
            :: lexLoop (lineno + countNl m) indentStack startRocket rest
      else
        .text lineno (String.mk m)
          :: lexLoop (lineno + countNl m) indentStack startRocket rest

/-- Model of `lex` (src/lex.rs lines 29–105): scan the input into
matches, run the token loop from line 0 with indentation stack `[0]`,
then flush the remaining indentation levels as dedents. -/
def lex (s : String) : List Token := lexLoop 0 [0] false (scan s.data)

theorem takeRun_fst_subset (p : Char → Bool) (l : List Char) :
    ∀ x ∈ (takeRun p l).1, x ∈ l := by
  intro x hx
  rw [← takeRun_append p l]
  exact List.mem_append.mpr (Or.inl hx)

theorem takeRun_snd_subset (p : Char → Bool) (l : List Char) :
    ∀ x ∈ (takeRun p l).2, x ∈ l := by
  intro x hx
  rw [← takeRun_append p l]
  exact List.mem_append.mpr (Or.inr hx)

end Lex

/-- A character that starts none of the Rocket delimiter alternatives:
not a parenthesis, equals sign, double quote, or newline. -/
def literalChar (c : Char) : Bool :=
  !(c == '(' || c == ')' || c == '=' || c == '"' || c == '\n')

/-- On delimiter-free input every lexer match is a nonempty run of
delimiter-free characters and the matches partition the input. -/
theorem scanF_literal :
    ∀ (fuel : Nat) (cs : List Char), (∀ c ∈ cs, literalChar c = true) →
      (Lex.scanF fuel cs).flatten = cs
        ∧ ∀ m ∈ Lex.scanF fuel cs, m ≠ [] ∧ ∀ x ∈ m, literalChar x = true := by
  intro fuel
  induction fuel with
  | zero =>
    intro cs h
    cases cs with
    | nil => simp [Lex.scanF]
    | cons c r =>
      refine ⟨by simp [Lex.scanF], ?_⟩
      intro m hm
      simp only [Lex.scanF, List.mem_singleton] at hm
      subst hm
      exact ⟨by simp, h⟩
  | succ n ih =>
    intro cs h
    cases cs with
    | nil => simp [Lex.scanF]
    | cons c rest =>
      have hc := h c (List.mem_cons_self c rest)
      have hns : ¬(c = '(') ∧ ¬(c = ')') ∧ ¬(c = '=') ∧ ¬(c = '"') ∧ ¬(c = '\n') := by
        simpa [literalChar, and_assoc] using hc
      obtain ⟨h1, h2, h3, h4, h5⟩ := hns
      have step : ∀ (p : Char → Bool),
          Lex.scanF (n + 1) (c :: rest)
            = (c :: (Lex.takeRun p rest).1) :: Lex.scanF n (Lex.takeRun p rest).2 →
          ((Lex.scanF (n + 1) (c :: rest)).flatten = c :: rest
            ∧ ∀ m ∈ Lex.scanF (n + 1) (c :: rest),
                m ≠ [] ∧ ∀ x ∈ m, literalChar x = true) := by
        intro p heq
        obtain ⟨ihj, ihm⟩ := ih (Lex.takeRun p rest).2
          (fun x hx => h x (List.mem_cons_of_mem _ (Lex.takeRun_snd_subset p rest x hx)))
        rw [heq]
        constructor
        · rw [List.flatten_cons, ihj, List.cons_append, Lex.takeRun_append]
        · intro m hm
          rcases List.mem_cons.mp hm with rfl | hm2
          · refine ⟨by simp, ?_⟩
            intro x hx
            rcases List.mem_cons.mp hx with rfl | hx2
            · exact hc
            · exact h x (List.mem_cons_of_mem _ (Lex.takeRun_fst_subset p rest x hx2))
          · exact ihm m hm2
      by_cases hws : isWsChar c = true
      · refine step isWsChar ?_
        simp only [Lex.scanF]
        rw [if_neg (fun hh => h1 hh.1), if_neg (fun hh => h3 hh.1), if_neg h4,
          if_neg h5, if_neg h3, if_neg h1, if_neg h2, if_pos hws]
      · refine step Lex.isTextChar ?_
        simp only [Lex.scanF]
        rw [if_neg (fun hh => h1 hh.1), if_neg (fun hh => h3 hh.1), if_neg h4,
          if_neg h5, if_neg h3, if_neg h1, if_neg h2, if_neg hws]

/-- On delimiter-free matches the token loop emits exactly one `Text`
token per match, all at line 0. -/
theorem lexLoop_literal :
    ∀ (ms : List (List Char)),
      (∀ m ∈ ms, m ≠ [] ∧ ∀ x ∈ m, literalChar x = true) →
      Lex.lexLoop 0 [0] false ms
        = ms.map (fun m => Lex.Token.text 0 (String.mk m)) := by
  intro ms
  induction ms with
  | nil => intro _; simp [Lex.lexLoop]
  | cons m rest ih =>
    intro h
    obtain ⟨hne, hlit⟩ := h m (List.mem_cons_self m rest)
    cases m with
    | nil => exact absurd rfl hne
    | cons c mrest =>
      have hc := hlit c (List.mem_cons_self c mrest)
      have hns : ¬(c = '(') ∧ ¬(c = ')') ∧ ¬(c = '=') ∧ ¬(c = '"') ∧ ¬(c = '\n') := by
        simpa [literalChar, and_assoc] using hc
      obtain ⟨h1, h2, h3, h4, h5⟩ := hns
      have hcnt : Lex.countNl (c :: mrest) = 0 := by
        rw [Lex.countNl, List.count_eq_zero]
        intro hmem
        have := hlit '\n' hmem
        simp [literalChar] at this
      simp only [Lex.lexLoop]
      rw [if_neg h2, if_neg h4, if_neg h5, if_neg h1, if_neg h3, hcnt]
      rw [show ((0 : Int) + ((0 : Nat) : Int)) = 0 by norm_num]
      rw [ih (fun x hx => h x (List.mem_cons_of_mem (c :: mrest) hx))]
      simp

/-- Feeding only `Text` tokens to the parse stack accumulates them in
the root rocket state's buffer. -/
theorem runTokens_text :
    ∀ (ss : List String) (cd : Nat) (root : List Node) (buf : List String)
      (fid : Nat) (ln : Int),
      Parse.runTokens [.rocket cd root buf fid ln]
          (ss.map fun s => Parse.Token.text 0 s)
        = some [.rocket cd root (buf ++ ss) fid ln] := by
  intro ss
  induction ss with
  | nil => intro cd root buf fid ln; simp [Parse.runTokens]
  | cons s rest ih =>
    intro cd root buf fid ln
    simp only [List.map_cons, Parse.runTokens, Parse.stackHandle, Parse.handleToken]
    rw [ih]
    simp

theorem concatStrs_mapMk (l : List (List Char)) :
    Parse.concatStrs (l.map String.mk) = String.mk l.flatten := by
  induction l with
  | nil => rfl
  | cons a r ih =>
    simp only [List.map_cons, Parse.concatStrs, ih, List.flatten_cons]
    apply String.ext
    simp [String.data_append]

/-- The tree the parser returns for delimiter-free input: a single
block headed by the literal `concat` name, followed by the input as one
literal child when it is nonempty. -/
def rootFor (s : String) : Node :=
  if s = "" then .block [.text "concat" 0 0] 0 0
  else .block [.text "concat" 0 0, .text s 0 0] 0 0

/-- Evaluating the literal-only parse tree under a prelude binding
`concat` (and no local shadowing) returns the input verbatim. -/
theorem evalConcatRoot (f : Nat) (st : W) (s : String)
    (hctx : st.ctx "concat" = none)
    (hpre : st.preludeCtx "concat" = some (.directive .concat)) :
    evalNode (f + 1) st (rootFor s) = (st, s) := by
  rw [rootFor]
  by_cases hs : s = ""
  · rw [if_pos hs, hs]
    simp [evalNode, evalFirst, lookupStored, hctx, hpre, applyDir, concatNodes]
  · rw [if_neg hs]
    simp [evalNode, evalFirst, lookupStored, hctx, hpre, applyDir, concatNodes,
      evalNode_text, hs]

/-- Claim C7: for input containing only literal text — no parentheses,
equals signs, quotes or newlines — the lexer emits exactly one `Text`
token per match and the matches partition the input; feeding the same
literal runs to the parser (the two checked-in revisions share only the
`Text` token shape, so the composition is stated through the common run
decomposition) yields a single block whose first child is the literal
`concat` name; and evaluating that block returns the input verbatim. -/
theorem c7_literal_roundtrip (s : String) (f : Nat) (st : W)
    (hlit : ∀ c ∈ s.data, literalChar c = true)
    (hctx : st.ctx "concat" = none)
    (hpre : st.preludeCtx "concat" = some (.directive .concat)) :
    Lex.lex s = (Lex.scan s.data).map (fun m => Lex.Token.text 0 (String.mk m)) ∧
    (Lex.scan s.data).flatten = s.data ∧
    Parse.parseTokens 0
        ((Lex.scan s.data).map (fun m => Parse.Token.text 0 (String.mk m)))
      = some (.ok (rootFor s)) ∧
    evalNode (f + 1) st (rootFor s) = (st, s) := by
  obtain ⟨hjoin, hchunks⟩ := scanF_literal s.data.length s.data hlit
  rw [show Lex.scan s.data = Lex.scanF s.data.length s.data from rfl] at *
  refine ⟨?_, hjoin, ?_, evalConcatRoot f st s hctx hpre⟩
  · rw [Lex.lex]
    exact lexLoop_literal _ hchunks
  · have hsplit : ((Lex.scanF s.data.length s.data).map
        (fun m => Parse.Token.text 0 (String.mk m)))
        = (((Lex.scanF s.data.length s.data).map String.mk).map
            (fun t => Parse.Token.text 0 t)) := by
      rw [List.map_map]
      rfl
    rw [hsplit]
    simp only [Parse.parseTokens, Parse.initStack]
    rw [runTokens_text]
    simp only [List.nil_append, Parse.finishState]
    by_cases hs : s = ""
    · subst hs
      rw [show Lex.scanF "".data.length "".data = ([] : List (List Char)) from rfl]
      simp [rootFor]
    · have hnonempty : Lex.scanF s.data.length s.data ≠ [] := by
        intro hemp
        rw [hemp] at hjoin
        exact hs (by
          apply String.ext
          rw [← hjoin]
          rfl)
      have hbuf : (Lex.scanF s.data.length s.data).map String.mk ≠ [] := by
        simpa using hnonempty
      rw [if_neg hbuf, concatStrs_mapMk, hjoin]
      simp [rootFor, hs, show String.mk s.data = s from rfl]

/-- Concrete instance of `c7_literal_roundtrip` at the input
`hello world` under a prelude binding only `concat`. -/
def concatW : W :=
  { initialW with
    preludeCtx := fun k =>
      if k = "concat" then some (.directive .concat) else none }

theorem c7_literal_roundtrip_witness :
    Lex.lex "hello world"
      = (Lex.scan "hello world".data).map (fun m => Lex.Token.text 0 (String.mk m)) ∧
    (Lex.scan "hello world".data).flatten = "hello world".data ∧
    Parse.parseTokens 0
        ((Lex.scan "hello world".data).map (fun m => Parse.Token.text 0 (String.mk m)))
      = some (.ok (rootFor "hello world")) ∧
    evalNode 1 concatW (rootFor "hello world") = (concatW, "hello world") :=
  c7_literal_roundtrip "hello world" 0 concatW (by decide) rfl rfl

end Rocket
